import Mathlib

/-!
Verification of the LSH sampling library (src/python/lsh.py).

The Python source is shallowly embedded: hash tables become functions from a
table index and a bucket key to a finite set of point ids, the global random
number generator becomes an explicit stream of natural numbers (each
`random.randrange(a, b)` call reads one stream value `c` and yields
`a + c % (b - a)`), and the `rank_query_simulate` sampler's mutable arrays
`ranks` / `point_rank` become explicitly threaded functions `Nat → Nat`
updated with `Function.update`.  The lazy-deletion min-heap of
`rank_query_simulate` is a list kept sorted by the lexicographic order on
`(rank, point)` pairs, so popping the head is exactly `heapq.heappop`.
-/

/-! ## Rank state of `LSH.rank_query_simulate` (lsh.py lines 163-203) -/

/-- `ranks` restricted to `[0, n)` is a permutation of `[0, n)` and
`point_rank` is its exact two-sided inverse there.  This is the invariant
claimed for the global rank state. -/
def RankInv (n : Nat) (ranks point_rank : Nat → Nat) : Prop :=
  (∀ i, i < n → ranks i < n) ∧
  (∀ p, p < n → point_rank p < n) ∧
  (∀ i, i < n → point_rank (ranks i) = i) ∧
  (∀ p, p < n → ranks (point_rank p) = p)

/-- Exchange the values of `f` at positions `i` and `j`, written as the two
sequential assignments the Python code performs. -/
def swapF (f : Nat → Nat) (i j : Nat) : Nat → Nat :=
  Function.update (Function.update f i (f j)) j (f i)

/-- The transposition of `i` and `j` on indices. -/
def swp (i j x : Nat) : Nat :=
  if x = j then i else if x = i then j else x

/-- `f` maps `[0, n)` bijectively onto `[0, n)`. -/
def BijN (n : Nat) (f : Nat → Nat) : Prop :=
  (∀ i, i < n → f i < n) ∧
  (∀ a, a < n → ∀ b, b < n → f a = f b → a = b) ∧
  (∀ p, p < n → ∃ i, i < n ∧ f i = p)

/-- Fisher-Yates shuffle as performed by `random.shuffle`: for `i` from the
last index down to `1`, swap position `i` with a random position
`cs i % (i + 1)` in `[0, i]`.  `cs` is the stream of raw random draws. -/
def fyDown (cs : Nat → Nat) : Nat → (Nat → Nat) → (Nat → Nat)
  | 0, f => f
  | i + 1, f => fyDown cs i (swapF f (i + 1) (cs (i + 1) % (i + 2)))

/-- `ranks = list(range(n)); random.shuffle(ranks)` (lsh.py lines 169-171). -/
def shuffledRanks (cs : Nat → Nat) (n : Nat) : Nat → Nat :=
  fyDown cs (n - 1) (fun i => i)

/-- `point_rank = [0]*n; for rank, point in enumerate(ranks):
point_rank[point] = rank` (lsh.py lines 170-174). -/
def buildPR (ranks : Nat → Nat) (n : Nat) : Nat → Nat :=
  (List.range n).foldl (fun pr i => Function.update pr (ranks i) i) (fun _ => 0)

/-- Per-query state of `rank_query_simulate`: the global rank permutation and
its inverse, the lazy-deletion heap (a list sorted by lexicographic order on
`(rank, point)`), and the emitted samples. -/
structure QState where
  ranks : Nat → Nat
  pr : Nat → Nat
  heap : List (Nat × Nat)
  res : List Nat

/-- Ordered insertion into the heap list, keeping it sorted by the
lexicographic order `heapq` uses on `(rank, point)` tuples. -/
def heapPush (e : Nat × Nat) : List (Nat × Nat) → List (Nat × Nat)
  | [] => [e]
  | x :: xs =>
    if e.1 < x.1 ∨ (e.1 = x.1 ∧ e.2 ≤ x.2) then e :: x :: xs
    else x :: heapPush e xs

/-- `heapq.heapify` of the seeded entry list: as a sorted list. -/
def heapify (l : List (Nat × Nat)) : List (Nat × Nat) :=
  l.foldr heapPush []

/-- The combined pop loop of one draw (lsh.py lines 184-189): pop the minimum
entry, discard it while it is stale (`rank != point_rank[point]`) or while the
popped fresh candidate fails `is_candidate_valid`, and return the first fresh
valid entry together with the remaining heap.  `none` models popping from an
empty heap (`heappop` raising `IndexError`). -/
def popLoop (pr : Nat → Nat) (valid : Nat → Bool) :
    List (Nat × Nat) → Option ((Nat × Nat) × List (Nat × Nat))
  | [] => none
  | (r, p) :: rest =>
    if r = pr p then
      if valid p then some ((r, p), rest) else popLoop pr valid rest
    else popLoop pr valid rest

/-- One draw of `rank_query_simulate` (lsh.py lines 184-202): pop until a
fresh valid entry `(rank, point)` is found, emit `point`, draw
`new_rank = randrange(rank, n)` from the stream value `c`, swap `point` with
the occupant `q` of `new_rank` in `ranks`, update `point_rank` for both, push
a fresh entry for `point`, and push a fresh entry for `q` when `q` is one of
this query's validated candidates. -/
def drawStep (n : Nat) (cands : List Nat) (valid : Nat → Bool) (c : Nat)
    (st : QState) : Option QState :=
  match popLoop st.pr valid st.heap with
  | none => none
  | some ((r, p), rest) =>
    let nr := r + c % (n - r)
    let q := st.ranks nr
    let ranks' := Function.update (Function.update st.ranks r q) nr p
    let pr' := Function.update (Function.update st.pr q r) p nr
    let h1 := heapPush (nr, p) rest
    let h2 := if q ∈ cands then heapPush (r, q) h1 else h1
    some ⟨ranks', pr', h2, st.res ++ [p]⟩

/-- The draw loop `for _ in range(query_size[j] * runs)`: one `drawStep` per
stream value in `cs`. -/
def runDraws (n : Nat) (cands : List Nat) (valid : Nat → Bool) :
    List Nat → QState → Option QState
  | [], st => some st
  | c :: cs, st =>
    match drawStep n cands valid c st with
    | none => none
    | some st' => runDraws n cands valid cs st'

/-- Processing of one query of `rank_query_simulate`: seed the heap with one
entry `(point_rank[p], p)` per validated candidate `p`, then run the draws. -/
def runQuery (n : Nat) (cands : List Nat) (valid : Nat → Bool) (cs : List Nat)
    (ranks pr : Nat → Nat) : Option QState :=
  runDraws n cands valid cs ⟨ranks, pr, heapify (cands.map fun p => (pr p, p)), []⟩

/-- Every heap entry refers to a validated candidate of the query. -/
def HeapCands (cands : List Nat) (heap : List (Nat × Nat)) : Prop :=
  ∀ e ∈ heap, e.2 ∈ cands

/-- Every validated candidate has a fresh entry in the heap. -/
def HeapFresh (cands : List Nat) (pr : Nat → Nat) (heap : List (Nat × Nat)) : Prop :=
  ∀ p ∈ cands, (pr p, p) ∈ heap

/-- The loop invariant of `rank_query_simulate` for one query. -/
def QInv (n : Nat) (cands : List Nat) (st : QState) : Prop :=
  RankInv n st.ranks st.pr ∧ HeapCands cands st.heap ∧ HeapFresh cands st.pr st.heap

/-! ## Index build, `LSH.preprocess` (lsh.py lines 39-47)

A table state maps a table index and a bucket key to the set of point ids in
that bucket; an absent key is the empty bucket, which models both
`dict.get(bucket, set())` and `dict.get(bucket, [])`. -/

/-- The fresh table state `self.tables = [{} for _ in range(L)]`. -/
def emptyTables {K : Type} : Nat → K → Finset Nat :=
  fun _ _ => ∅

/-- `self.tables[j].setdefault(h, set()).add(i)`. -/
def addPoint {K : Type} [DecidableEq K] (tb : Nat → K → Finset Nat)
    (j : Nat) (h : K) (i : Nat) : Nat → K → Finset Nat :=
  fun j' h' => if j' = j ∧ h' = h then insert i (tb j' h') else tb j' h'

/-- The build loop of `preprocess`: for every point `i` of the dataset and
every table `j`, insert `i` into table `j` under the key
`key i j = self._get_hash_value(hvs[i], j)` extracted from `i`'s own
signature.  The signature computation itself is the hash-family capability
and enters only through `key`. -/
def buildTables {K : Type} [DecidableEq K] (n L : Nat) (key : Nat → Nat → K) :
    Nat → K → Finset Nat :=
  (List.range n).foldl
    (fun tb i => (List.range L).foldl (fun tb j => addPoint tb j (key i j) i) tb)
    emptyTables

/-! ## Query preprocessing, `LSH.preprocess_query` (lsh.py lines 49-75)

For one query the per-table bucket keys are `qk : Nat → K`
(`qk i = self._get_hash_value(q, i)`), and `valid : Nat → Bool` is
`is_candidate_valid(Y[j], self.X[·])`, a pure predicate on point ids. -/

/-- The raw union `elements |= self.tables[table].get(bucket, set())`
accumulated over the `L` looked-up buckets. -/
def rawUnion {K : Type} [DecidableEq K] (L : Nat) (tables : Nat → K → Finset Nat)
    (qk : Nat → K) : Finset Nat :=
  (List.range L).foldl (fun s i => s ∪ tables i (qk i)) ∅

/-- `set(x for x in elements if valid x)`: a single pass over the distinct
members of the raw union, returning the kept elements and the number of
validity evaluations performed. -/
def filterWithCount (valid : Nat → Bool) (l : List Nat) : List Nat × Nat :=
  l.foldr (fun x acc => (if valid x then x :: acc.1 else acc.1, acc.2 + 1)) ([], 0)

/-- The validated candidate list of one query. -/
def validatedList {K : Type} [DecidableEq K] (L : Nat)
    (tables : Nat → K → Finset Nat) (qk : Nat → K) (valid : Nat → Bool) : List Nat :=
  (filterWithCount valid ((rawUnion L tables qk).sort (· ≤ ·))).1

/-- The bucket sizes `len(self.tables[table].get(bucket, []))` of one query,
in table order. -/
def bucketSizes {K : Type} [DecidableEq K] (L : Nat)
    (tables : Nat → K → Finset Nat) (qk : Nat → K) : List Nat :=
  (List.range L).map fun i => (tables i (qk i)).card

/-- The running-sum loop `s += len(bucket); prefix_sums[j][i] = s`. -/
def psumsAux (s : Nat) : List Nat → List Nat
  | [] => []
  | x :: xs => (s + x) :: psumsAux (s + x) xs

/-- The per-query running-sum sequence over the `L` bucket sizes. -/
def psums {K : Type} [DecidableEq K] (L : Nat) (tables : Nat → K → Finset Nat)
    (qk : Nat → K) : List Nat :=
  psumsAux 0 (bucketSizes L tables qk)

/-- `bucket_sizes[j]`: the total number of slots of the query. -/
def bucketTotal {K : Type} [DecidableEq K] (L : Nat)
    (tables : Nat → K → Finset Nat) (qk : Nat → K) : Nat :=
  (bucketSizes L tables qk).sum

/-- `bisect.bisect_right` on a sorted list: the number of entries `≤ x`. -/
def bisectR (l : List Nat) (x : Nat) : Nat :=
  (l.takeWhile fun a => a ≤ x).length

/-! ## Samplers `uniform_query`, `weighted_uniform_query`, `opt`
(lsh.py lines 82-133)

Rejection loops are modelled with explicit fuel; `none` stands for a loop
that exceeds its fuel.  A stream position `t` indexes the global random
stream `c`; each loop iteration consumes two draws (a slot draw and a
`random.choice` draw).  Sampled ids are returned as `Int` so that the
"no sample" sentinel `-1` keeps its source value. -/

/-- The body `while True:` of `uniform_query` (lsh.py lines 90-96): pick a
table uniformly, pick an element of its bucket (`[-1]` when the bucket is
empty, which then fails the `p != -1` test and retries), accept when
`is_candidate_valid` holds. -/
def uniformStep {K : Type} [DecidableEq K] (L : Nat) (tables : Nat → K → Finset Nat)
    (qk : Nat → K) (valid : Nat → Bool) (c : Nat → Nat) :
    Nat → Nat → Option (Nat × Nat)
  | 0, _ => none
  | fuel + 1, t =>
    let i := c t % L
    let bucket := tables i (qk i)
    if bucket.card = 0 then uniformStep L tables qk valid c fuel (t + 2)
    else
      let p := (bucket.sort (· ≤ ·)).getD (c (t + 1) % bucket.card) 0
      if valid p then some (p, t + 2)
      else uniformStep L tables qk valid c fuel (t + 2)

/-- One query of `uniform_query` (lsh.py lines 82-97): `sizes[j] * runs`
draws; when the validated candidate set is empty each draw appends the
sentinel `-1`, otherwise the rejection body runs. -/
def uniformQueryOne {K : Type} [DecidableEq K] (L : Nat)
    (tables : Nat → K → Finset Nat) (qk : Nat → K) (valid : Nat → Bool)
    (runs fuel : Nat) (c : Nat → Nat) : Option (List Int) :=
  let size := (validatedList L tables qk valid).length
  ((List.range (size * runs)).foldl
    (fun acc _ =>
      match acc with
      | none => none
      | some (res, t) =>
        if size = 0 then some (res ++ [(-1 : Int)], t)
        else
          match uniformStep L tables qk valid c fuel t with
          | none => none
          | some (p, t') => some (res ++ [(p : Int)], t'))
    (some ([], 0))).map Prod.fst

/-- The body `while True:` of `weighted_uniform_query` (lsh.py lines
109-116): draw a slot uniformly in `[0, total)`, binary-search its owning
bucket in the running sums, pick a uniform element of that bucket, accept
when valid. -/
def weightedStep {K : Type} [DecidableEq K] (L : Nat) (tables : Nat → K → Finset Nat)
    (qk : Nat → K) (valid : Nat → Bool) (c : Nat → Nat) :
    Nat → Nat → Option (Nat × Nat)
  | 0, _ => none
  | fuel + 1, t =>
    let i := c t % bucketTotal L tables qk
    let pos := bisectR (psums L tables qk) i
    let bucket := tables pos (qk pos)
    let p := (bucket.sort (· ≤ ·)).getD (c (t + 1) % bucket.card) 0
    if valid p then some (p, t + 2)
    else weightedStep L tables qk valid c fuel (t + 2)

/-- One query of `weighted_uniform_query` (lsh.py lines 99-117). -/
def weightedQueryOne {K : Type} [DecidableEq K] (L : Nat)
    (tables : Nat → K → Finset Nat) (qk : Nat → K) (valid : Nat → Bool)
    (runs fuel : Nat) (c : Nat → Nat) : Option (List Int) :=
  let size := (validatedList L tables qk valid).length
  ((List.range (size * runs)).foldl
    (fun acc _ =>
      match acc with
      | none => none
      | some (res, t) =>
        if size = 0 then some (res ++ [(-1 : Int)], t)
        else
          match weightedStep L tables qk valid c fuel t with
          | none => none
          | some (p, t') => some (res ++ [(p : Int)], t'))
    (some ([], 0))).map Prod.fst

/-- One query of `opt` (lsh.py lines 119-133): `query_size[j] * runs` draws
(or `runs` when `runs_per_collision` is disabled), each a uniform choice from
the materialized validated candidate list, with the sentinel `-1` when that
list is empty. -/
def optQueryOne {K : Type} [DecidableEq K] (L : Nat)
    (tables : Nat → K → Finset Nat) (qk : Nat → K) (valid : Nat → Bool)
    (runs : Nat) (runsPerCollision : Bool) (c : Nat → Nat) : List Int :=
  let elements := validatedList L tables qk valid
  let size := elements.length
  let iters := if runsPerCollision then size * runs else runs
  (List.range iters).map fun t =>
    if size = 0 then (-1 : Int) else ((elements.getD (c t % size) 0 : Nat) : Int)

/-! ## `LSH.approx_degree` (lsh.py lines 205-213)

`hit b` is `q in self.tables[table].get(bucket, set())` for the probed pair
`buckets[b]`, and `cs` is the stream of raw draws behind
`random.randrange(0, L)`. -/

/-- The probe loop: starting from `num` probes done and `rem = L - num`
allowed probes left, increment `num`, probe bucket `cs num % L`, stop on a
hit; return the final `num`. -/
def approxDegreeGo (L : Nat) (hit : Nat → Bool) (cs : Nat → Nat) :
    Nat → Nat → Nat
  | 0, num => num
  | rem + 1, num =>
    if hit (cs num % L) then num + 1
    else approxDegreeGo L hit cs rem (num + 1)

/-- The number of probes `num` performed by `approx_degree`. -/
def approxDegreeNum (L : Nat) (hit : Nat → Bool) (cs : Nat → Nat) : Nat :=
  approxDegreeGo L hit cs L 0

/-- `approx_degree`'s return value `L // num`. -/
def approxDegreeVal (L : Nat) (hit : Nat → Bool) (cs : Nat → Nat) : Nat :=
  L / approxDegreeNum L hit cs

/-! ## `LSHBuilder` (lsh.py lines 6-34) -/

/-- `LSHBuilder.methods` (lsh.py lines 8-12). -/
def methods : List String :=
  ["opt", "uniform", "weighted_uniform", "approx_degree", "rank"]

/-- The `assert method in LSHBuilder.methods` guard of `LSHBuilder.invoke`:
whether the call proceeds. -/
def invokeOk (m : String) : Bool :=
  decide (m ∈ methods)

/-- The hash-family object selected by `LSHBuilder.build`.  `k` and `L` are
stored unchecked; the numeric parameters `w`, `d`, `r` are payload with no
control flow and are omitted. -/
inductive LSHKind where
  | e2lsh : Nat → Nat → LSHKind
  | onebitminhash : Nat → Nat → LSHKind
deriving DecidableEq

/-- `LSHBuilder.build` (lsh.py lines 14-19): dispatch on
`lsh_params['type']`; an unrecognised type falls through and returns `None`;
no validation of `k`, `L`, or the dataset is performed. -/
def buildCheck (lshType : String) (k L : Nat) : Option LSHKind :=
  if lshType = "e2lsh" then some (LSHKind.e2lsh k L)
  else if lshType = "onebitminhash" then some (LSHKind.onebitminhash k L)
  else none

/-! ## The global random stream and the two hash-family constructors
(lsh.py lines 225-309)

`Rng` is the state of the `random` module: an underlying output stream
`vals` and the number of draws already consumed.  `random.seed(s)` replaces
the whole state by a stream determined by `s` alone; the stream-from-seed
functions are abstract parameters since the Mersenne Twister is an external
numeric capability. -/

/-- State of a pseudo-random source. -/
structure Rng where
  vals : Nat → Nat
  pos : Nat

/-- One lookup table `[random.randint(0, 2**32 - 1) for _ in range(2**8)]`
of `MinHash.__init__` (lsh.py lines 228-231), and the advanced state. -/
def mkTable (g : Rng) : List Nat × Rng :=
  ((List.range 256).map fun i => g.vals (g.pos + i) % 2 ^ 32,
   ⟨g.vals, g.pos + 256⟩)

/-- The four byte-indexed tables of one `MinHash`. -/
structure MinHashT where
  t1 : List Nat
  t2 : List Nat
  t3 : List Nat
  t4 : List Nat
deriving DecidableEq

/-- `MinHash.__init__`: draw the four tables from the global stream. -/
def mkMinHash (g : Rng) : MinHashT × Rng :=
  let (a, g1) := mkTable g
  let (b, g2) := mkTable g1
  let (c, g3) := mkTable g2
  let (d, g4) := mkTable g3
  (⟨a, b, c, d⟩, g4)

/-- The inner comprehension `[MinHash() for _ in range(k)]`. -/
def mkRow : Nat → Rng → List MinHashT × Rng
  | 0, g => ([], g)
  | k + 1, g =>
    let (m, g1) := mkMinHash g
    let (ms, g2) := mkRow k g1
    (m :: ms, g2)

/-- The outer comprehension `[[MinHash() for _ in range(k)] for _ in range(L)]`. -/
def mkRows (k : Nat) : Nat → Rng → List (List MinHashT) × Rng
  | 0, g => ([], g)
  | L + 1, g =>
    let (row, g1) := mkRow k g
    let (rows, g2) := mkRows k L g1
    (row :: rows, g2)

/-- `OneBitMinHash.__init__(k, L, r, validate, seed)` (lsh.py lines 246-252):
the hash functions are drawn from the incoming global stream; the `seed`
parameter is accepted but never used, exactly as in the source. -/
def oneBitMinHashInit (k L : Nat) (seed : Nat) (g : Rng) :
    List (List MinHashT) × Rng :=
  let _ := seed
  mkRows k L g

/-- `E2LSH.__init__(k, L, w, d, r, validate, seed)` (lsh.py lines 280-289):
`np.random.seed(seed); random.seed(seed)` discard the incoming generator
states and replace them by streams determined by `seed`; then `A` takes the
first `d * (k * L)` draws of the numpy stream and `b` the next `k * L`
(their float transforms are the external numeric capability, so the raw
draws stand for the entries).  Returns `A`, `b`, and the reseeded global
`random` state. -/
def e2lshInit (npSeedFun pySeedFun : Nat → Nat → Nat) (k L d : Nat)
    (seed : Nat) (g : Rng) : List Nat × List Nat × Rng :=
  let _ := g
  let gnp : Rng := ⟨npSeedFun seed, 0⟩
  let gpy : Rng := ⟨pySeedFun seed, 0⟩
  ((List.range (d * (k * L))).map fun i => gnp.vals i,
   (List.range (k * L)).map fun i => gnp.vals (d * (k * L) + i),
   gpy)

/-! ## Setup lemmas: the shuffled rank array is a permutation and
`buildPR` computes its inverse -/

theorem swapF_apply (f : Nat → Nat) (i j x : Nat) :
    swapF f i j x = f (swp i j x) := by
  unfold swapF swp
  by_cases hj : x = j
  · subst hj
    simp [Function.update_same]
  · rw [Function.update_noteq hj]
    by_cases hi : x = i
    · subst hi
      simp [Function.update_same, hj]
    · rw [Function.update_noteq hi]
      simp [hj, hi]

theorem swp_lt {n i j : Nat} (hi : i < n) (hj : j < n) (x : Nat) (hx : x < n) :
    swp i j x < n := by
  unfold swp
  split
  · exact hi
  · split
    · exact hj
    · exact hx

theorem swp_swp (i j x : Nat) : swp i j (swp i j x) = x := by
  unfold swp
  by_cases hj : x = j
  · by_cases hij : i = j <;> simp [hj, hij]
  · by_cases hi : x = i
    · simp [hi, hj]
    · simp [hi, hj]

theorem bijN_swapF {n : Nat} {f : Nat → Nat} (h : BijN n f) {i j : Nat}
    (hi : i < n) (hj : j < n) : BijN n (swapF f i j) := by
  obtain ⟨hb, hinj, hsurj⟩ := h
  refine ⟨?_, ?_, ?_⟩
  · intro x hx
    rw [swapF_apply]
    exact hb _ (swp_lt hi hj x hx)
  · intro a ha b hb' heq
    rw [swapF_apply, swapF_apply] at heq
    have := hinj _ (swp_lt hi hj a ha) _ (swp_lt hi hj b hb') heq
    have h2 := congrArg (swp i j) this
    rwa [swp_swp, swp_swp] at h2
  · intro p hp
    obtain ⟨i0, hi0, hfi0⟩ := hsurj p hp
    refine ⟨swp i j i0, swp_lt hi hj i0 hi0, ?_⟩
    rw [swapF_apply, swp_swp]
    exact hfi0

theorem bijN_fyDown {n : Nat} (cs : Nat → Nat) :
    ∀ i, i < n → ∀ f, BijN n f → BijN n (fyDown cs i f) := by
  intro i
  induction i with
  | zero => intro _ f hf; exact hf
  | succ i ih =>
    intro hi f hf
    have hswap : BijN n (swapF f (i + 1) (cs (i + 1) % (i + 2))) := by
      refine bijN_swapF hf hi ?_
      exact lt_of_lt_of_le (Nat.mod_lt _ (Nat.succ_pos _)) hi
    exact ih (Nat.lt_of_succ_lt hi) _ hswap

theorem bijN_id (n : Nat) : BijN n (fun i => i) :=
  ⟨fun _ h => h, fun _ _ _ _ h => h, fun p hp => ⟨p, hp, rfl⟩⟩

theorem bijN_shuffledRanks (cs : Nat → Nat) (n : Nat) :
    BijN n (shuffledRanks cs n) := by
  unfold shuffledRanks
  rcases n with _ | m
  · exact bijN_id 0
  · exact bijN_fyDown cs (m + 1 - 1) (Nat.lt_succ_of_le (Nat.sub_le m 0)) _
      (bijN_id (m + 1))

theorem foldl_update_untouched (ranks : Nat → Nat) :
    ∀ (l : List Nat) (g : Nat → Nat) (x : Nat), (∀ a ∈ l, ranks a ≠ x) →
      (l.foldl (fun pr i => Function.update pr (ranks i) i) g) x = g x := by
  intro l
  induction l with
  | nil => intro g x _; rfl
  | cons j t ih =>
    intro g x hne
    simp only [List.foldl_cons]
    rw [ih _ _ fun a ha => hne a (List.mem_cons_of_mem _ ha)]
    exact Function.update_noteq (fun h => hne j (List.mem_cons_self _ _) h.symm) _ _

theorem foldl_update_hits (ranks : Nat → Nat) :
    ∀ (l : List Nat), l.Nodup →
      (∀ a ∈ l, ∀ b ∈ l, ranks a = ranks b → a = b) →
      ∀ i ∈ l, ∀ g : Nat → Nat,
        (l.foldl (fun pr i => Function.update pr (ranks i) i) g) (ranks i) = i := by
  intro l
  induction l with
  | nil => intro _ _ i hi; exact absurd hi (List.not_mem_nil i)
  | cons j t ih =>
    intro hnd hinj i hi g
    simp only [List.foldl_cons]
    rcases List.mem_cons.mp hi with rfl | hit
    · have hnotin : ∀ a ∈ t, ranks a ≠ ranks i := by
        intro a ha heq
        have : a = i := hinj a (List.mem_cons_of_mem _ ha) i (List.mem_cons_self _ _) heq
        subst this
        exact (List.nodup_cons.mp hnd).1 ha
      rw [foldl_update_untouched ranks t _ _ hnotin]
      exact Function.update_same _ _ _
    · exact ih (List.nodup_cons.mp hnd).2
        (fun a ha b hb => hinj a (List.mem_cons_of_mem _ ha) b (List.mem_cons_of_mem _ hb))
        i hit _

theorem foldl_update_bounded {n : Nat} (ranks : Nat → Nat) :
    ∀ (l : List Nat) (g : Nat → Nat), (∀ x, g x < n) → (∀ a ∈ l, a < n) →
      ∀ x, (l.foldl (fun pr i => Function.update pr (ranks i) i) g) x < n := by
  intro l
  induction l with
  | nil => intro g hg _ x; exact hg x
  | cons j t ih =>
    intro g hg hl x
    simp only [List.foldl_cons]
    refine ih _ ?_ (fun a ha => hl a (List.mem_cons_of_mem _ ha)) x
    intro y
    by_cases hy : y = ranks j
    · subst hy
      rw [Function.update_same]
      exact hl j (List.mem_cons_self _ _)
    · rw [Function.update_noteq hy]
      exact hg y

theorem rankInv_setup (cs : Nat → Nat) (n : Nat) :
    RankInv n (shuffledRanks cs n) (buildPR (shuffledRanks cs n) n) := by
  set f := shuffledRanks cs n with hf
  obtain ⟨hb, hinj, hsurj⟩ := bijN_shuffledRanks cs n
  have hinj' : ∀ a ∈ List.range n, ∀ b ∈ List.range n, f a = f b → a = b := by
    intro a ha b hb' heq
    exact hinj a (List.mem_range.mp ha) b (List.mem_range.mp hb') heq
  have hleft : ∀ i, i < n → buildPR f n (f i) = i := by
    intro i hi
    exact foldl_update_hits f (List.range n) (List.nodup_range n) hinj' i
      (List.mem_range.mpr hi) _
  refine ⟨hb, ?_, hleft, ?_⟩
  · intro p hp
    have hn : 0 < n := Nat.pos_of_ne_zero (by rintro rfl; exact absurd hp (Nat.not_lt_zero p))
    refine foldl_update_bounded f (List.range n) _ (fun _ => hn) ?_ p
    intro a ha
    exact List.mem_range.mp ha
  · intro p hp
    obtain ⟨i, hi, hfi⟩ := hsurj p hp
    have hfi' : f i = p := hfi
    rw [← hfi', hleft i hi]

/-! ## Heap lemmas -/

theorem heapPush_mem (e : Nat × Nat) :
    ∀ (l : List (Nat × Nat)) (a : Nat × Nat), a ∈ heapPush e l ↔ a = e ∨ a ∈ l := by
  intro l
  induction l with
  | nil => intro a; simp [heapPush]
  | cons x xs ih =>
    intro a
    unfold heapPush
    split
    · simp [List.mem_cons]
    · simp only [List.mem_cons, ih]
      tauto

theorem heapify_mem :
    ∀ (l : List (Nat × Nat)) (a : Nat × Nat), a ∈ heapify l ↔ a ∈ l := by
  intro l
  induction l with
  | nil => intro a; simp [heapify]
  | cons x xs ih =>
    intro a
    show a ∈ heapPush x (heapify xs) ↔ _
    rw [heapPush_mem, List.mem_cons, ih]

theorem popLoop_spec (pr : Nat → Nat) (valid : Nat → Bool) :
    ∀ (h : List (Nat × Nat)) (r p : Nat) (rest : List (Nat × Nat)),
      popLoop pr valid h = some ((r, p), rest) →
      (r, p) ∈ h ∧ r = pr p ∧ valid p = true ∧
      (∀ e ∈ rest, e ∈ h) ∧
      (∀ e ∈ h, e.1 = pr e.2 → valid e.2 = true → e = (r, p) ∨ e ∈ rest) := by
  intro h
  induction h with
  | nil => intro r p rest he; simp [popLoop] at he
  | cons x xs ih =>
    intro r p rest he
    obtain ⟨xr, xp⟩ := x
    by_cases hfresh : xr = pr xp
    · by_cases hval : valid xp = true
      · rw [popLoop, if_pos hfresh, if_pos hval] at he
        have he' := Option.some.inj he
        simp only [Prod.mk.injEq] at he'
        obtain ⟨⟨hr1, hp1⟩, hrest⟩ := he'
        subst hr1
        subst hp1
        subst hrest
        refine ⟨List.mem_cons_self _ _, hfresh, hval, fun e hee => List.mem_cons_of_mem _ hee, ?_⟩
        intro e hee _ _
        rcases List.mem_cons.mp hee with h | h
        · exact Or.inl h
        · exact Or.inr h
      · rw [popLoop, if_pos hfresh, if_neg hval] at he
        obtain ⟨h1, h2, h3, h4, h5⟩ := ih r p rest he
        refine ⟨List.mem_cons_of_mem _ h1, h2, h3,
          fun e hee => List.mem_cons_of_mem _ (h4 e hee), ?_⟩
        intro e hee hfr hv
        rcases List.mem_cons.mp hee with rfl | hin
        · exact absurd hv hval
        · exact h5 e hin hfr hv
    · rw [popLoop, if_neg hfresh] at he
      obtain ⟨h1, h2, h3, h4, h5⟩ := ih r p rest he
      refine ⟨List.mem_cons_of_mem _ h1, h2, h3,
        fun e hee => List.mem_cons_of_mem _ (h4 e hee), ?_⟩
      intro e hee hfr hv
      rcases List.mem_cons.mp hee with rfl | hin
      · exact absurd hfr hfresh
      · exact h5 e hin hfr hv

theorem popLoop_some (pr : Nat → Nat) (valid : Nat → Bool) :
    ∀ (h : List (Nat × Nat)), (∃ e ∈ h, e.1 = pr e.2 ∧ valid e.2 = true) →
      ∃ out, popLoop pr valid h = some out := by
  intro h
  induction h with
  | nil =>
    rintro ⟨e, he, _⟩
    exact absurd he (List.not_mem_nil e)
  | cons x xs ih =>
    rintro ⟨e, he, hfr, hv⟩
    obtain ⟨xr, xp⟩ := x
    by_cases h1 : xr = pr xp
    · by_cases h2 : valid xp = true
      · exact ⟨((xr, xp), xs), by rw [popLoop, if_pos h1, if_pos h2]⟩
      · have hexs : e ∈ xs := by
          rcases List.mem_cons.mp he with rfl | hin
          · exact absurd hv h2
          · exact hin
        obtain ⟨out, hout⟩ := ih ⟨e, hexs, hfr, hv⟩
        exact ⟨out, by rw [popLoop, if_pos h1, if_neg h2]; exact hout⟩
    · have hexs : e ∈ xs := by
        rcases List.mem_cons.mp he with rfl | hin
        · exact absurd hfr h1
        · exact hin
      obtain ⟨out, hout⟩ := ih ⟨e, hexs, hfr, hv⟩
      exact ⟨out, by rw [popLoop, if_neg h1]; exact hout⟩

/-! ## The per-draw swap preserves the rank/inverse invariant -/

theorem rankInv_swap {n : Nat} {ranks pr : Nat → Nat} (h : RankInv n ranks pr)
    {r nr : Nat} (hr : r < n) (hnr : nr < n) :
    RankInv n (Function.update (Function.update ranks r (ranks nr)) nr (ranks r))
      (Function.update (Function.update pr (ranks nr) r) (ranks r) nr) := by
  obtain ⟨hrb, hprb, hlft, hrgt⟩ := h
  have hp : ranks r < n := hrb r hr
  have hq : ranks nr < n := hrb nr hnr
  have hinj : ∀ a, a < n → ∀ b, b < n → ranks a = ranks b → a = b := by
    intro a ha b hb heq
    rw [← hlft a ha, heq, hlft b hb]
  have hR : ∀ x, (Function.update (Function.update ranks r (ranks nr)) nr (ranks r)) x =
      if x = nr then ranks r else if x = r then ranks nr else ranks x := by
    intro x
    rw [Function.update_apply, Function.update_apply]
  have hP : ∀ y, (Function.update (Function.update pr (ranks nr) r) (ranks r) nr) y =
      if y = ranks r then nr else if y = ranks nr then r else pr y := by
    intro y
    rw [Function.update_apply, Function.update_apply]
  refine ⟨?_, ?_, ?_, ?_⟩
  · intro i hi
    rw [hR]
    split
    · exact hp
    · split
      · exact hq
      · exact hrb i hi
  · intro y hy
    rw [hP]
    split
    · exact hnr
    · split
      · exact hr
      · exact hprb y hy
  · intro i hi
    rw [hR, hP]
    by_cases h1 : i = nr
    · rw [if_pos h1, if_pos rfl]
      exact h1.symm
    · rw [if_neg h1]
      by_cases h2 : i = r
      · rw [if_pos h2]
        have hqp : ranks nr ≠ ranks r := by
          intro heq
          exact h1 (h2.trans (hinj nr hnr r hr heq).symm)
        rw [if_neg hqp, if_pos rfl]
        exact h2.symm
      · rw [if_neg h2]
        have hne1 : ranks i ≠ ranks r := fun heq => h2 (hinj i hi r hr heq)
        have hne2 : ranks i ≠ ranks nr := fun heq => h1 (hinj i hi nr hnr heq)
        rw [if_neg hne1, if_neg hne2]
        exact hlft i hi
  · intro y hy
    rw [hP]
    by_cases h1 : y = ranks r
    · rw [if_pos h1, hR, if_pos rfl]
      exact h1.symm
    · rw [if_neg h1]
      by_cases h2 : y = ranks nr
      · rw [if_pos h2, hR]
        have hrnr : r ≠ nr := by
          intro heq
          apply h1
          rw [h2, heq]
        rw [if_neg hrnr, if_pos rfl]
        exact h2.symm
      · rw [if_neg h2, hR]
        have hy1 : pr y ≠ nr := by
          intro heq
          apply h2
          rw [← hrgt y hy, heq]
        have hy2 : pr y ≠ r := by
          intro heq
          apply h1
          rw [← hrgt y hy, heq]
        rw [if_neg hy1, if_neg hy2]
        exact hrgt y hy

/-! ## One draw preserves the full loop invariant -/

theorem drawStep_eq {n : Nat} {cands : List Nat} {valid : Nat → Bool} {c : Nat}
    {st : QState} {r p : Nat} {rest : List (Nat × Nat)}
    (hpop : popLoop st.pr valid st.heap = some ((r, p), rest)) :
    drawStep n cands valid c st = some
      ⟨Function.update (Function.update st.ranks r (st.ranks (r + c % (n - r))))
         (r + c % (n - r)) p,
       Function.update (Function.update st.pr (st.ranks (r + c % (n - r))) r) p
         (r + c % (n - r)),
       (if st.ranks (r + c % (n - r)) ∈ cands
        then heapPush (r, st.ranks (r + c % (n - r))) (heapPush (r + c % (n - r), p) rest)
        else heapPush (r + c % (n - r), p) rest),
       st.res ++ [p]⟩ := by
  unfold drawStep
  rw [hpop]

theorem qinv_step {n : Nat} {cands : List Nat} {valid : Nat → Bool} {c : Nat}
    {st st' : QState} (hc : ∀ p ∈ cands, p < n) (hv : ∀ p ∈ cands, valid p = true)
    (hinv : QInv n cands st) (hstep : drawStep n cands valid c st = some st') :
    QInv n cands st' := by
  obtain ⟨hrk, hhc, hhf⟩ := hinv
  cases hpop : popLoop st.pr valid st.heap with
  | none =>
    rw [drawStep, hpop] at hstep
    exact absurd hstep (by simp)
  | some out =>
    obtain ⟨⟨r, p⟩, rest⟩ := out
    rw [drawStep_eq hpop] at hstep
    obtain ⟨hmem, hfr, hval, hsub, hsurv⟩ := popLoop_spec st.pr valid st.heap r p rest hpop
    have hpc : p ∈ cands := hhc (r, p) hmem
    have hpn : p < n := hc p hpc
    have hrn : r < n := by
      rw [hfr]
      exact hrk.2.1 p hpn
    have hnrn : r + c % (n - r) < n := by
      have := Nat.mod_lt c (show 0 < n - r by omega)
      omega
    have hranksr : st.ranks r = p := by
      rw [hfr]
      exact hrk.2.2.2 p hpn
    obtain rfl := Option.some.inj hstep
    set nr := r + c % (n - r) with hnrdef
    set q := st.ranks nr with hqdef
    have hqn : q < n := hrk.1 nr hnrn
    refine ⟨?_, ?_, ?_⟩
    · show RankInv n (Function.update (Function.update st.ranks r q) nr p)
        (Function.update (Function.update st.pr q r) p nr)
      have := rankInv_swap hrk hrn hnrn
      rwa [hranksr] at this
    · show HeapCands cands _
      intro e he
      simp only at he
      have hmem' : e ∈ heapPush (nr, p) rest ∨ e = (r, q) := by
        by_cases hqc : q ∈ cands
        · rw [if_pos hqc] at he
          rcases (heapPush_mem _ _ e).mp he with h | h
          · exact Or.inr h
          · exact Or.inl h
        · rw [if_neg hqc] at he
          exact Or.inl he
      rcases hmem' with h | h
      · rcases (heapPush_mem _ _ e).mp h with h' | h'
        · rw [h']
          exact hpc
        · exact hhc e (hsub e h')
      · by_cases hqc : q ∈ cands
        · rw [h]
          exact hqc
        · rw [if_neg hqc] at he
          rcases (heapPush_mem _ _ e).mp he with h' | h'
          · rw [h']
            exact hpc
          · exact hhc e (hsub e h')
    · show HeapFresh cands (Function.update (Function.update st.pr q r) p nr) _
      intro x hx
      by_cases hxp : x = p
      · subst hxp
        rw [Function.update_same]
        have : (nr, x) ∈ heapPush (nr, x) rest := (heapPush_mem _ _ _).mpr (Or.inl rfl)
        by_cases hqc : q ∈ cands
        · simp only [if_pos hqc]
          exact (heapPush_mem _ _ _).mpr (Or.inr this)
        · simp only [if_neg hqc]
          exact this
      · rw [Function.update_noteq hxp]
        by_cases hxq : x = q
        · subst hxq
          rw [Function.update_same]
          simp only [if_pos hx]
          exact (heapPush_mem _ _ _).mpr (Or.inl rfl)
        · rw [Function.update_noteq hxq]
          have hsv := hsurv (st.pr x, x) (hhf x hx) rfl (hv x hx)
          have hrest : (st.pr x, x) ∈ rest := by
            rcases hsv with heq | hin
            · exact absurd (congrArg Prod.snd heq) hxp
            · exact hin
          have h1 : (st.pr x, x) ∈ heapPush (nr, p) rest :=
            (heapPush_mem _ _ _).mpr (Or.inr hrest)
          by_cases hqc : q ∈ cands
          · simp only [if_pos hqc]
            exact (heapPush_mem _ _ _).mpr (Or.inr h1)
          · simp only [if_neg hqc]
            exact h1

theorem qinv_init {n : Nat} {cands : List Nat} {ranks pr : Nat → Nat}
    (hrk : RankInv n ranks pr) :
    QInv n cands ⟨ranks, pr, heapify (cands.map fun p => (pr p, p)), []⟩ := by
  refine ⟨hrk, ?_, ?_⟩
  · intro e he
    rw [heapify_mem] at he
    obtain ⟨p, hp, rfl⟩ := List.mem_map.mp he
    exact hp
  · intro p hp
    show (pr p, p) ∈ heapify (cands.map fun p => (pr p, p))
    rw [heapify_mem]
    exact List.mem_map.mpr ⟨p, hp, rfl⟩

theorem drawStep_some {n : Nat} {cands : List Nat} {valid : Nat → Bool} (c : Nat)
    {st : QState} (hne : cands ≠ []) (hv : ∀ p ∈ cands, valid p = true)
    (hinv : QInv n cands st) :
    ∃ st', drawStep n cands valid c st = some st' ∧
      ∃ p ∈ cands, st'.res = st.res ++ [p] := by
  obtain ⟨hrk, hhc, hhf⟩ := hinv
  obtain ⟨x, hx⟩ := List.exists_mem_of_ne_nil cands hne
  obtain ⟨out, hout⟩ := popLoop_some st.pr valid st.heap
    ⟨(st.pr x, x), hhf x hx, rfl, hv x hx⟩
  obtain ⟨⟨r, p⟩, rest⟩ := out
  obtain ⟨hmem, _, _, _, _⟩ := popLoop_spec st.pr valid st.heap r p rest hout
  exact ⟨_, drawStep_eq hout, p, hhc (r, p) hmem, rfl⟩

theorem runDraws_spec {n : Nat} {cands : List Nat} {valid : Nat → Bool}
    (hc : ∀ p ∈ cands, p < n) (hv : ∀ p ∈ cands, valid p = true) (hne : cands ≠ []) :
    ∀ (cs : List Nat) (st : QState), QInv n cands st →
      ∃ st', runDraws n cands valid cs st = some st' ∧ QInv n cands st' ∧
        st'.res.length = st.res.length + cs.length ∧
        (∀ x ∈ st'.res, x ∈ cands ∨ x ∈ st.res) := by
  intro cs
  induction cs with
  | nil =>
    intro st hinv
    exact ⟨st, rfl, hinv, by simp, fun x hx => Or.inr hx⟩
  | cons c cs ih =>
    intro st hinv
    obtain ⟨st1, hstep, p, hp, hres⟩ := drawStep_some c hne hv hinv
    have hinv1 := qinv_step hc hv hinv hstep
    obtain ⟨st', hrun, hinv', hlen, hmemb⟩ := ih st1 hinv1
    refine ⟨st', ?_, hinv', ?_, ?_⟩
    · rw [runDraws, hstep]
      exact hrun
    · rw [hlen, hres]
      simp only [List.length_append, List.length_cons, List.length_nil]
      omega
    · intro x hx
      rcases hmemb x hx with h | h
      · exact Or.inl h
      · rw [hres] at h
        rcases List.mem_append.mp h with h' | h'
        · exact Or.inr h'
        · rw [List.mem_singleton.mp h']
          exact Or.inl hp

theorem runDraws_qinv {n : Nat} {cands : List Nat} {valid : Nat → Bool}
    (hc : ∀ p ∈ cands, p < n) (hv : ∀ p ∈ cands, valid p = true) :
    ∀ (cs : List Nat) (st st' : QState), QInv n cands st →
      runDraws n cands valid cs st = some st' → QInv n cands st' := by
  intro cs
  induction cs with
  | nil =>
    intro st st' hinv h
    obtain rfl := Option.some.inj h
    exact hinv
  | cons c cs ih =>
    intro st st' hinv h
    cases hstep : drawStep n cands valid c st with
    | none =>
      rw [runDraws, hstep] at h
      exact absurd h (by simp)
    | some st1 =>
      rw [runDraws, hstep] at h
      exact ih st1 st' (qinv_step hc hv hinv hstep) h

/-! ## Claims C1, C3, C10 -/

/-- C1: In `rank_query_simulate`, at every point during a batch — after the
initial shuffle (`shuffledRanks` paired with the `buildPR` inverse pass) and
after every per-draw swap (`drawStep`, hence along any whole draw sequence
`runDraws`) — `ranks` maps `[0, n)` onto itself with `point_rank` as its
exact two-sided inverse, so `ranks (point_rank p) = p` for every point `p`. -/
theorem c1_rank_permutation_inverse_invariant (n : Nat) (cs0 : Nat → Nat)
    (cands : List Nat) (valid : Nat → Bool) (c : Nat) (cs : List Nat) (st : QState)
    (hc : ∀ p ∈ cands, p < n) (hv : ∀ p ∈ cands, valid p = true)
    (hinv : QInv n cands st) :
    RankInv n (shuffledRanks cs0 n) (buildPR (shuffledRanks cs0 n) n) ∧
    (∀ st' ∈ drawStep n cands valid c st, RankInv n st'.ranks st'.pr) ∧
    (∀ st' ∈ runDraws n cands valid cs st, RankInv n st'.ranks st'.pr) := by
  refine ⟨rankInv_setup cs0 n, ?_, ?_⟩
  · intro st' hst'
    exact (qinv_step hc hv hinv (Option.mem_def.mp hst')).1
  · intro st' hst'
    exact (runDraws_qinv hc hv cs st st' hinv (Option.mem_def.mp hst')).1

/-- Witness for C1 at a concrete two-point state. -/
theorem c1_rank_permutation_inverse_invariant_witness :
    RankInv 2 (shuffledRanks (fun _ => 0) 2) (buildPR (shuffledRanks (fun _ => 0) 2) 2) ∧
    (∀ st' ∈ drawStep 2 [0, 1] (fun _ => true) 1
        ⟨fun i => i, fun i => i, [(0, 0), (1, 1)], []⟩,
      RankInv 2 st'.ranks st'.pr) ∧
    (∀ st' ∈ runDraws 2 [0, 1] (fun _ => true) [0, 1]
        ⟨fun i => i, fun i => i, [(0, 0), (1, 1)], []⟩,
      RankInv 2 st'.ranks st'.pr) :=
  c1_rank_permutation_inverse_invariant 2 (fun _ => 0) [0, 1] (fun _ => true) 1 [0, 1]
    ⟨fun i => i, fun i => i, [(0, 0), (1, 1)], []⟩
    (by decide) (by decide)
    ⟨by unfold RankInv; decide, by unfold HeapCands; decide, by unfold HeapFresh; decide⟩

/-- C3: For a query with a non-empty validated candidate set, every one of
the requested draws terminates: `runQuery` returns a final state (the pop
loop never hits an empty heap), one sample — a fresh validated candidate —
is emitted per draw, and fresh heap entries for the same point coincide, so
each point has at most one fresh entry value in the heap at a time. -/
theorem c3_draws_terminate (n : Nat) (cands : List Nat) (valid : Nat → Bool)
    (cs : List Nat) (ranks pr : Nat → Nat) (hne : cands ≠ [])
    (hc : ∀ p ∈ cands, p < n) (hv : ∀ p ∈ cands, valid p = true)
    (hrk : RankInv n ranks pr) :
    ∃ st', runQuery n cands valid cs ranks pr = some st' ∧
      st'.res.length = cs.length ∧ (∀ p ∈ st'.res, p ∈ cands) ∧
      (∀ e1 ∈ st'.heap, ∀ e2 ∈ st'.heap,
        e1.1 = st'.pr e1.2 → e2.1 = st'.pr e2.2 → e1.2 = e2.2 → e1 = e2) := by
  obtain ⟨st', hrun, _, hlen, hmemb⟩ :=
    runDraws_spec hc hv hne cs ⟨ranks, pr, heapify (cands.map fun p => (pr p, p)), []⟩
      (qinv_init hrk)
  refine ⟨st', hrun, by simpa using hlen, ?_, ?_⟩
  · intro p hp
    rcases hmemb p hp with h | h
    · exact h
    · exact absurd h (List.not_mem_nil p)
  · intro e1 h1 e2 h2 hf1 hf2 heq
    obtain ⟨a, b⟩ := e1
    obtain ⟨a2, b2⟩ := e2
    simp only at hf1 hf2 heq
    subst heq
    rw [Prod.mk.injEq]
    exact ⟨hf1.trans hf2.symm, rfl⟩

/-- Witness for C3 at a concrete two-candidate query with three draws. -/
theorem c3_draws_terminate_witness :
    ∃ st', runQuery 2 [0, 1] (fun _ => true) [0, 1, 2] (fun i => i) (fun i => i) = some st' ∧
      st'.res.length = [0, 1, 2].length ∧ (∀ p ∈ st'.res, p ∈ [0, 1]) ∧
      (∀ e1 ∈ st'.heap, ∀ e2 ∈ st'.heap,
        e1.1 = st'.pr e1.2 → e2.1 = st'.pr e2.2 → e1.2 = e2.2 → e1 = e2) :=
  c3_draws_terminate 2 [0, 1] (fun _ => true) [0, 1, 2] (fun i => i) (fun i => i)
    (by decide) (by decide) (by decide) (by unfold RankInv; decide)

/-- C10: Every entry ever present in a query's heap refers to a point of the
query's validated candidate set (along any draw sequence), and since the
validity predicate is a fixed boolean function that holds on all candidates,
the validity test on a popped fresh entry succeeds and the pop loop never
drops a fresh entry: every fresh entry is either the one emitted or still in
the remaining heap. -/
theorem c10_heap_entries_are_candidates (n : Nat) (cands : List Nat)
    (valid : Nat → Bool) (cs : List Nat) (st : QState)
    (hc : ∀ p ∈ cands, p < n) (hv : ∀ p ∈ cands, valid p = true)
    (hinv : QInv n cands st) :
    (∀ st' ∈ runDraws n cands valid cs st, ∀ e ∈ st'.heap, e.2 ∈ cands) ∧
    (∀ r p rest, popLoop st.pr valid st.heap = some ((r, p), rest) →
      valid p = true ∧ p ∈ cands ∧
      ∀ e ∈ st.heap, e.1 = st.pr e.2 → e = (r, p) ∨ e ∈ rest) := by
  constructor
  · intro st' hst' e he
    exact (runDraws_qinv hc hv cs st st' hinv (Option.mem_def.mp hst')).2.1 e he
  · intro r p rest hpop
    obtain ⟨hmem, _, hval, _, hsurv⟩ := popLoop_spec st.pr valid st.heap r p rest hpop
    exact ⟨hval, hinv.2.1 (r, p) hmem,
      fun e he hf => hsurv e he hf (hv e.2 (hinv.2.1 e he))⟩

/-- Witness for C10 at a concrete two-point state. -/
theorem c10_heap_entries_are_candidates_witness :
    (∀ st' ∈ runDraws 2 [0, 1] (fun _ => true) [1, 0]
        ⟨fun i => i, fun i => i, [(0, 0), (1, 1)], []⟩,
      ∀ e ∈ st'.heap, e.2 ∈ [0, 1]) ∧
    (∀ r p rest,
      popLoop (fun i => i) (fun _ => true) [(0, 0), (1, 1)] = some ((r, p), rest) →
      (fun _ => true) p = true ∧ p ∈ [0, 1] ∧
      ∀ e ∈ [(0, 0), (1, 1)], e.1 = e.2 → e = (r, p) ∨ e ∈ rest) :=
  c10_heap_entries_are_candidates 2 [0, 1] (fun _ => true) [1, 0]
    ⟨fun i => i, fun i => i, [(0, 0), (1, 1)], []⟩
    (by decide) (by decide)
    ⟨by unfold RankInv; decide, by unfold HeapCands; decide, by unfold HeapFresh; decide⟩

/-! ## Raw union and validity filtering -/

theorem foldl_union_mem (f : Nat → Finset Nat) :
    ∀ (l : List Nat) (init : Finset Nat) (x : Nat),
      x ∈ l.foldl (fun s i => s ∪ f i) init ↔ x ∈ init ∨ ∃ i ∈ l, x ∈ f i := by
  intro l
  induction l with
  | nil => intro init x; simp
  | cons a as ih =>
    intro init x
    rw [List.foldl_cons, ih]
    rw [Finset.mem_union]
    constructor
    · rintro ((hx | hx) | ⟨i, hi, hx⟩)
      · exact Or.inl hx
      · exact Or.inr ⟨a, List.mem_cons_self _ _, hx⟩
      · exact Or.inr ⟨i, List.mem_cons_of_mem _ hi, hx⟩
    · rintro (hx | ⟨i, hi, hx⟩)
      · exact Or.inl (Or.inl hx)
      · rcases List.mem_cons.mp hi with rfl | hi'
        · exact Or.inl (Or.inr hx)
        · exact Or.inr ⟨i, hi', hx⟩

theorem rawUnion_mem {K : Type} [DecidableEq K] (L : Nat)
    (tables : Nat → K → Finset Nat) (qk : Nat → K) (x : Nat) :
    x ∈ rawUnion L tables qk ↔ ∃ i, i < L ∧ x ∈ tables i (qk i) := by
  unfold rawUnion
  rw [foldl_union_mem]
  constructor
  · rintro (hx | ⟨i, hi, hx⟩)
    · exact absurd hx (Finset.not_mem_empty x)
    · exact ⟨i, List.mem_range.mp hi, hx⟩
  · rintro ⟨i, hi, hx⟩
    exact Or.inr ⟨i, List.mem_range.mpr hi, hx⟩

theorem filterWithCount_cons (valid : Nat → Bool) (a : Nat) (as : List Nat) :
    filterWithCount valid (a :: as) =
      (if valid a then a :: (filterWithCount valid as).1 else (filterWithCount valid as).1,
       (filterWithCount valid as).2 + 1) := rfl

theorem filterWithCount_mem (valid : Nat → Bool) :
    ∀ (l : List Nat) (x : Nat),
      x ∈ (filterWithCount valid l).1 ↔ x ∈ l ∧ valid x = true := by
  intro l
  induction l with
  | nil => intro x; simp [filterWithCount]
  | cons a as ih =>
    intro x
    rw [filterWithCount_cons]
    by_cases hv : valid a = true
    · rw [if_pos hv]
      show x ∈ a :: (filterWithCount valid as).1 ↔ _
      rw [List.mem_cons, ih]
      constructor
      · rintro (rfl | ⟨hx, hvx⟩)
        · exact ⟨List.mem_cons_self _ _, hv⟩
        · exact ⟨List.mem_cons_of_mem _ hx, hvx⟩
      · rintro ⟨hmem, hvx⟩
        rcases List.mem_cons.mp hmem with rfl | hx
        · exact Or.inl rfl
        · exact Or.inr (ih x |>.mpr ⟨hx, hvx⟩ |> (ih x).mp)
    · rw [if_neg hv]
      show x ∈ (filterWithCount valid as).1 ↔ _
      rw [ih]
      constructor
      · rintro ⟨hx, hvx⟩
        exact ⟨List.mem_cons_of_mem _ hx, hvx⟩
      · rintro ⟨hmem, hvx⟩
        rcases List.mem_cons.mp hmem with rfl | hx
        · exact absurd hvx hv
        · exact ⟨hx, hvx⟩

theorem filterWithCount_snd (valid : Nat → Bool) :
    ∀ (l : List Nat), (filterWithCount valid l).2 = l.length := by
  intro l
  induction l with
  | nil => rfl
  | cons a as ih =>
    rw [filterWithCount_cons]
    show (filterWithCount valid as).2 + 1 = as.length + 1
    rw [ih]

theorem validatedList_mem {K : Type} [DecidableEq K] (L : Nat)
    (tables : Nat → K → Finset Nat) (qk : Nat → K) (valid : Nat → Bool) (x : Nat) :
    x ∈ validatedList L tables qk valid ↔
      (∃ i, i < L ∧ x ∈ tables i (qk i)) ∧ valid x = true := by
  unfold validatedList
  rw [filterWithCount_mem, Finset.mem_sort, rawUnion_mem]

/-- C2: The validated candidate set produced by `preprocess_query` for a
query is exactly the set of points of the raw union of its `L` bucket
lookups that satisfy `is_candidate_valid`, and the validity predicate is
evaluated exactly once per distinct member of the raw union (the evaluation
count equals the raw union's cardinality). -/
theorem c2_validated_candidates {K : Type} [DecidableEq K] (L : Nat)
    (tables : Nat → K → Finset Nat) (qk : Nat → K) (valid : Nat → Bool) :
    (∀ x, x ∈ validatedList L tables qk valid ↔
      ((∃ i, i < L ∧ x ∈ tables i (qk i)) ∧ valid x = true)) ∧
    (filterWithCount valid ((rawUnion L tables qk).sort (· ≤ ·))).2 =
      (rawUnion L tables qk).card := by
  constructor
  · intro x
    exact validatedList_mem L tables qk valid x
  · rw [filterWithCount_snd, Finset.length_sort]

/-- Witness for C2 on a one-table index holding the single point `0`. -/
theorem c2_validated_candidates_witness :
    (∀ x, x ∈ validatedList 1 (fun _ _ => ({0} : Finset Nat)) (fun _ => (0 : Nat))
        (fun p => decide (p = 0)) ↔
      ((∃ i, i < 1 ∧ x ∈ (fun _ _ => ({0} : Finset Nat)) i ((fun _ => (0 : Nat)) i)) ∧
        decide (x = 0) = true)) ∧
    (filterWithCount (fun p => decide (p = 0))
      ((rawUnion 1 (fun _ _ => ({0} : Finset Nat)) (fun _ => (0 : Nat))).sort (· ≤ ·))).2 =
      (rawUnion 1 (fun _ _ => ({0} : Finset Nat)) (fun _ => (0 : Nat))).card :=
  c2_validated_candidates 1 (fun _ _ => ({0} : Finset Nat)) (fun _ => (0 : Nat))
    (fun p => decide (p = 0))

/-! ## Build invariant -/

theorem addPoint_mem {K : Type} [DecidableEq K] (tb : Nat → K → Finset Nat)
    (j : Nat) (hk : K) (i x t : Nat) (h : K) :
    x ∈ addPoint tb j hk i t h ↔ x ∈ tb t h ∨ (x = i ∧ t = j ∧ h = hk) := by
  unfold addPoint
  by_cases hc : t = j ∧ h = hk
  · rw [if_pos hc, Finset.mem_insert]
    constructor
    · rintro (rfl | hx)
      · exact Or.inr ⟨rfl, hc⟩
      · exact Or.inl hx
    · rintro (hx | ⟨rfl, _⟩)
      · exact Or.inr hx
      · exact Or.inl rfl
  · rw [if_neg hc]
    constructor
    · exact Or.inl
    · rintro (hx | ⟨rfl, h1, h2⟩)
      · exact hx
      · exact absurd ⟨h1, h2⟩ hc

theorem innerFold_mem {K : Type} [DecidableEq K] (key : Nat → Nat → K) (i : Nat) :
    ∀ (lj : List Nat) (tb : Nat → K → Finset Nat) (x t : Nat) (h : K),
      x ∈ (lj.foldl (fun tb j => addPoint tb j (key i j) i) tb) t h ↔
        x ∈ tb t h ∨ (x = i ∧ t ∈ lj ∧ h = key i t) := by
  intro lj
  induction lj with
  | nil => intro tb x t h; simp
  | cons j rest ih =>
    intro tb x t h
    rw [List.foldl_cons, ih, addPoint_mem]
    constructor
    · rintro ((hx | ⟨rfl, rfl, rfl⟩) | ⟨rfl, ht, rfl⟩)
      · exact Or.inl hx
      · exact Or.inr ⟨rfl, List.mem_cons_self _ _, rfl⟩
      · exact Or.inr ⟨rfl, List.mem_cons_of_mem _ ht, rfl⟩
    · rintro (hx | ⟨rfl, ht, rfl⟩)
      · exact Or.inl (Or.inl hx)
      · rcases List.mem_cons.mp ht with rfl | ht'
        · exact Or.inl (Or.inr ⟨rfl, rfl, rfl⟩)
        · exact Or.inr ⟨rfl, ht', rfl⟩

theorem outerFold_mem {K : Type} [DecidableEq K] (key : Nat → Nat → K) (L : Nat) :
    ∀ (li : List Nat) (tb : Nat → K → Finset Nat) (x t : Nat) (h : K),
      x ∈ (li.foldl
            (fun tb i => (List.range L).foldl (fun tb j => addPoint tb j (key i j) i) tb)
            tb) t h ↔
        x ∈ tb t h ∨ (x ∈ li ∧ t < L ∧ h = key x t) := by
  intro li
  induction li with
  | nil => intro tb x t h; simp
  | cons i rest ih =>
    intro tb x t h
    rw [List.foldl_cons, ih, innerFold_mem]
    constructor
    · rintro ((hx | ⟨rfl, ht, rfl⟩) | ⟨hx, ht, rfl⟩)
      · exact Or.inl hx
      · exact Or.inr ⟨List.mem_cons_self _ _, List.mem_range.mp ht, rfl⟩
      · exact Or.inr ⟨List.mem_cons_of_mem _ hx, ht, rfl⟩
    · rintro (hx | ⟨hmem, ht, rfl⟩)
      · exact Or.inl (Or.inl hx)
      · rcases List.mem_cons.mp hmem with rfl | h'
        · exact Or.inl (Or.inr ⟨rfl, List.mem_range.mpr ht, rfl⟩)
        · exact Or.inr ⟨h', ht, rfl⟩

/-- C4: After the build, every dataset point `p` appears in table `t`
exactly in the bucket keyed by `p`'s own signature key `key p t`
(membership in a bucket of table `t` holds precisely for that one key). -/
theorem c4_build_invariant {K : Type} [DecidableEq K] (n L : Nat)
    (key : Nat → Nat → K) (p t : Nat) (hp : p < n) (ht : t < L) :
    ∀ h, p ∈ buildTables n L key t h ↔ h = key p t := by
  intro h
  unfold buildTables
  rw [outerFold_mem]
  constructor
  · rintro (hx | ⟨_, _, rfl⟩)
    · exact absurd hx (Finset.not_mem_empty p)
    · rfl
  · intro hk
    exact Or.inr ⟨List.mem_range.mpr hp, ht, hk⟩

/-- Witness for C4: a two-point, two-table index with key function `i + j`,
checked at the point's own key `1` and at the foreign key `2`. -/
theorem c4_build_invariant_witness :
    (1 ∈ buildTables 2 2 (fun i j => i + j) 0 1 ↔ (1 : Nat) = 1) ∧
    (1 ∈ buildTables 2 2 (fun i j => i + j) 0 2 ↔ (2 : Nat) = 1) :=
  ⟨c4_build_invariant 2 2 (fun i j => i + j) 1 0 (by decide) (by decide) 1,
   c4_build_invariant 2 2 (fun i j => i + j) 1 0 (by decide) (by decide) 2⟩

/-! ## Running sums of bucket sizes -/

theorem psumsAux_chain_le :
    ∀ (xs : List Nat) (s : Nat), List.Chain' (· ≤ ·) (psumsAux s xs) := by
  intro xs
  induction xs with
  | nil => intro s; exact List.chain'_nil
  | cons x ys ih =>
    intro s
    cases ys with
    | nil => exact List.chain'_singleton _
    | cons y zs =>
      have hexp : psumsAux s (x :: y :: zs) =
          (s + x) :: (s + x + y) :: psumsAux (s + x + y) zs := rfl
      rw [hexp, List.chain'_cons]
      refine ⟨Nat.le_add_right _ _, ?_⟩
      have h := ih (s + x)
      have he : psumsAux (s + x) (y :: zs) = (s + x + y) :: psumsAux (s + x + y) zs := rfl
      rwa [he] at h

theorem psumsAux_chain_lt :
    ∀ (xs : List Nat) (s : Nat), (∀ x ∈ xs, 0 < x) →
      List.Chain' (· < ·) (psumsAux s xs) := by
  intro xs
  induction xs with
  | nil => intro s _; exact List.chain'_nil
  | cons x ys ih =>
    intro s hpos
    cases ys with
    | nil => exact List.chain'_singleton _
    | cons y zs =>
      have hexp : psumsAux s (x :: y :: zs) =
          (s + x) :: (s + x + y) :: psumsAux (s + x + y) zs := rfl
      rw [hexp, List.chain'_cons]
      constructor
      · have : 0 < y := hpos y (List.mem_cons_of_mem _ (List.mem_cons_self _ _))
        omega
      · have h := ih (s + x) (fun a ha => hpos a (List.mem_cons_of_mem _ ha))
        have he : psumsAux (s + x) (y :: zs) = (s + x + y) :: psumsAux (s + x + y) zs := rfl
        rwa [he] at h

/-- Counterexample to C7: a query that hits an empty bucket in both tables
of a two-table index built over one point; its running-sum sequence is
`[0, 0]`, which is not strictly increasing. -/
theorem c7_counterexample :
    ¬ List.Chain' (· < ·)
      (psums 2 (buildTables 1 2 (fun _ _ => (0 : Nat))) (fun _ => (1 : Nat))) := by
  have h : psums 2 (buildTables 1 2 (fun _ _ => (0 : Nat))) (fun _ => (1 : Nat)) = [0, 0] := by
    decide
  rw [h, List.chain'_cons]
  rintro ⟨h0, _⟩
  exact absurd h0 (lt_irrefl 0)

/-- C7 (amended): the per-query running-sum sequence over the `L` bucket
sizes is non-decreasing, and it is strictly increasing when every looked-up
bucket is non-empty (an empty or absent bucket repeats the previous value). -/
theorem c7_psums_monotone {K : Type} [DecidableEq K] (L : Nat)
    (tables : Nat → K → Finset Nat) (qk : Nat → K) :
    List.Chain' (· ≤ ·) (psums L tables qk) ∧
    ((∀ i, i < L → (tables i (qk i)).Nonempty) →
      List.Chain' (· < ·) (psums L tables qk)) := by
  constructor
  · exact psumsAux_chain_le _ 0
  · intro hpos
    apply psumsAux_chain_lt
    intro x hx
    unfold bucketSizes at hx
    obtain ⟨i, hi, rfl⟩ := List.mem_map.mp hx
    exact Finset.card_pos.mpr (hpos i (List.mem_range.mp hi))

/-- Witness for C7 (amended) on a one-table index with a non-empty bucket. -/
theorem c7_psums_monotone_witness :
    List.Chain' (· ≤ ·) (psums 1 (fun _ _ => ({0} : Finset Nat)) (fun _ => (0 : Nat))) ∧
    List.Chain' (· < ·) (psums 1 (fun _ _ => ({0} : Finset Nat)) (fun _ => (0 : Nat))) :=
  ⟨(c7_psums_monotone 1 (fun _ _ => ({0} : Finset Nat)) (fun _ => (0 : Nat))).1,
   (c7_psums_monotone 1 (fun _ _ => ({0} : Finset Nat)) (fun _ => (0 : Nat))).2
     (by decide)⟩

/-! ## Empty-candidate sentinel behaviour -/

/-- C5: For a query whose validated candidate set is empty, each of
`uniform_query`, `weighted_uniform_query` and `opt` performs
`|validated candidates| * runs` requested draws and every one of them yields
the sentinel `-1` (the requested draw count is then zero, so the per-query
output is the empty sequence of sentinels and no rejection loop runs). -/
theorem c5_empty_candidates_sentinel {K : Type} [DecidableEq K] (L : Nat)
    (tables : Nat → K → Finset Nat) (qk : Nat → K) (valid : Nat → Bool)
    (runs fuel : Nat) (c : Nat → Nat)
    (hempty : validatedList L tables qk valid = []) :
    (∃ l, uniformQueryOne L tables qk valid runs fuel c = some l ∧
      l.length = (validatedList L tables qk valid).length * runs ∧
      ∀ x ∈ l, x = (-1 : Int)) ∧
    (∃ l, weightedQueryOne L tables qk valid runs fuel c = some l ∧
      l.length = (validatedList L tables qk valid).length * runs ∧
      ∀ x ∈ l, x = (-1 : Int)) ∧
    ((optQueryOne L tables qk valid runs true c).length =
      (validatedList L tables qk valid).length * runs ∧
      ∀ x ∈ optQueryOne L tables qk valid runs true c, x = (-1 : Int)) := by
  have hu : uniformQueryOne L tables qk valid runs fuel c = some [] := by
    unfold uniformQueryOne
    rw [hempty]
    simp
  have hw : weightedQueryOne L tables qk valid runs fuel c = some [] := by
    unfold weightedQueryOne
    rw [hempty]
    simp
  have ho : optQueryOne L tables qk valid runs true c = [] := by
    unfold optQueryOne
    rw [hempty]
    simp
  refine ⟨⟨[], hu, ?_, by simp⟩, ⟨[], hw, ?_, by simp⟩, ?_, ?_⟩
  · rw [hempty]
    simp
  · rw [hempty]
    simp
  · rw [ho, hempty]
    simp
  · rw [ho]
    simp

/-- Witness for C5 on a one-table index with an empty bucket. -/
theorem c5_empty_candidates_sentinel_witness :
    (∃ l, uniformQueryOne 1 (fun _ _ => (∅ : Finset Nat)) (fun _ => (0 : Nat))
        (fun _ => true) 3 5 (fun _ => 0) = some l ∧
      l.length = (validatedList 1 (fun _ _ => (∅ : Finset Nat)) (fun _ => (0 : Nat))
        (fun _ => true)).length * 3 ∧
      ∀ x ∈ l, x = (-1 : Int)) ∧
    (∃ l, weightedQueryOne 1 (fun _ _ => (∅ : Finset Nat)) (fun _ => (0 : Nat))
        (fun _ => true) 3 5 (fun _ => 0) = some l ∧
      l.length = (validatedList 1 (fun _ _ => (∅ : Finset Nat)) (fun _ => (0 : Nat))
        (fun _ => true)).length * 3 ∧
      ∀ x ∈ l, x = (-1 : Int)) ∧
    ((optQueryOne 1 (fun _ _ => (∅ : Finset Nat)) (fun _ => (0 : Nat))
        (fun _ => true) 3 true (fun _ => 0)).length =
      (validatedList 1 (fun _ _ => (∅ : Finset Nat)) (fun _ => (0 : Nat))
        (fun _ => true)).length * 3 ∧
      ∀ x ∈ optQueryOne 1 (fun _ _ => (∅ : Finset Nat)) (fun _ => (0 : Nat))
        (fun _ => true) 3 true (fun _ => 0), x = (-1 : Int)) :=
  c5_empty_candidates_sentinel 1 (fun _ _ => (∅ : Finset Nat)) (fun _ => (0 : Nat))
    (fun _ => true) 3 5 (fun _ => 0)
    (by
      apply List.eq_nil_iff_forall_not_mem.mpr
      intro x hx
      obtain ⟨⟨i, _, hmem⟩, _⟩ := (validatedList_mem _ _ _ _ x).mp hx
      exact absurd hmem (Finset.not_mem_empty x))

/-! ## Degree estimation -/

theorem approxDegreeGo_spec (L : Nat) (hit : Nat → Bool) (cs : Nat → Nat) :
    ∀ (rem num : Nat),
      num ≤ approxDegreeGo L hit cs rem num ∧
      (1 ≤ rem → num < approxDegreeGo L hit cs rem num) ∧
      approxDegreeGo L hit cs rem num ≤ num + rem ∧
      (∀ i, num ≤ i → i + 1 < approxDegreeGo L hit cs rem num →
        hit (cs i % L) = false) ∧
      (approxDegreeGo L hit cs rem num < num + rem →
        hit (cs (approxDegreeGo L hit cs rem num - 1) % L) = true) := by
  intro rem
  induction rem with
  | zero =>
    intro num
    have hval : approxDegreeGo L hit cs 0 num = num := rfl
    rw [hval]
    exact ⟨le_refl _, by omega, by omega,
      fun i hi hlt => absurd hlt (by omega),
      fun h => absurd h (by omega)⟩
  | succ rem ih =>
    intro num
    by_cases hh : hit (cs num % L) = true
    · have hval : approxDegreeGo L hit cs (rem + 1) num = num + 1 := by
        show (if hit (cs num % L) = true then num + 1
              else approxDegreeGo L hit cs rem (num + 1)) = num + 1
        rw [if_pos hh]
      rw [hval]
      refine ⟨by omega, fun _ => by omega, by omega, ?_, ?_⟩
      · intro i hi hlt
        exact absurd hlt (by omega)
      · intro _
        simpa using hh
    · have hval : approxDegreeGo L hit cs (rem + 1) num =
          approxDegreeGo L hit cs rem (num + 1) := by
        show (if hit (cs num % L) = true then num + 1
              else approxDegreeGo L hit cs rem (num + 1)) =
          approxDegreeGo L hit cs rem (num + 1)
        rw [if_neg hh]
      obtain ⟨h1, _, h3, h4, h5⟩ := ih (num + 1)
      rw [hval]
      refine ⟨by omega, fun _ => by omega, by omega, ?_, ?_⟩
      · intro i hi hlt
        by_cases hieq : i = num
        · subst hieq
          exact Bool.eq_false_iff.mpr hh
        · exact h4 i (by omega) hlt
      · intro hlt
        exact h5 (by omega)

/-- C8: `approx_degree` probes randomly chosen buckets of the query's bucket
list, stopping as soon as a probed bucket contains the candidate or after
`L` probes; all probes before the last miss, and if it stopped before the
`L`-th probe the last probe hit.  It returns `L` integer-divided by the
number of probes `num`, and the estimate is always an integer in `[1, L]`. -/
theorem c8_approx_degree (L : Nat) (hit : Nat → Bool) (cs : Nat → Nat)
    (hL : 1 ≤ L) :
    1 ≤ approxDegreeNum L hit cs ∧ approxDegreeNum L hit cs ≤ L ∧
    (∀ i, i + 1 < approxDegreeNum L hit cs → hit (cs i % L) = false) ∧
    (approxDegreeNum L hit cs < L →
      hit (cs (approxDegreeNum L hit cs - 1) % L) = true) ∧
    approxDegreeVal L hit cs = L / approxDegreeNum L hit cs ∧
    1 ≤ approxDegreeVal L hit cs ∧ approxDegreeVal L hit cs ≤ L := by
  obtain ⟨h1, h2, h3, h4, h5⟩ := approxDegreeGo_spec L hit cs L 0
  have hnum1 : 1 ≤ approxDegreeNum L hit cs := h2 hL
  have hnumL : approxDegreeNum L hit cs ≤ L := by
    have hg : approxDegreeGo L hit cs L 0 ≤ 0 + L := h3
    have he : approxDegreeNum L hit cs = approxDegreeGo L hit cs L 0 := rfl
    omega
  refine ⟨hnum1, hnumL, ?_, ?_, rfl, ?_, Nat.div_le_self _ _⟩
  · intro i hlt
    exact h4 i (Nat.zero_le i) hlt
  · intro hlt
    have he : approxDegreeNum L hit cs = approxDegreeGo L hit cs L 0 := rfl
    exact h5 (by omega)
  · exact (Nat.one_le_div_iff (by omega)).mpr hnumL

/-- Witness for C8 with two tables and an always-hitting probe. -/
theorem c8_approx_degree_witness :
    1 ≤ approxDegreeNum 2 (fun _ => true) (fun _ => 0) ∧
    approxDegreeNum 2 (fun _ => true) (fun _ => 0) ≤ 2 ∧
    (∀ i, i + 1 < approxDegreeNum 2 (fun _ => true) (fun _ => 0) →
      (fun _ => true) ((fun _ => 0) i % 2) = false) ∧
    (approxDegreeNum 2 (fun _ => true) (fun _ => 0) < 2 →
      (fun _ => true) ((fun _ => 0)
        (approxDegreeNum 2 (fun _ => true) (fun _ => 0) - 1) % 2) = true) ∧
    approxDegreeVal 2 (fun _ => true) (fun _ => 0) =
      2 / approxDegreeNum 2 (fun _ => true) (fun _ => 0) ∧
    1 ≤ approxDegreeVal 2 (fun _ => true) (fun _ => 0) ∧
    approxDegreeVal 2 (fun _ => true) (fun _ => 0) ≤ 2 :=
  c8_approx_degree 2 (fun _ => true) (fun _ => 0) (by decide)

/-! ## Builder configuration guards -/

/-- Counterexample to C6: the strategy name accepted by `invoke` is
`"rank"`, not `"rank_simulate"`, and `build` raises no error on `k = 0`,
`L = 0`. -/
theorem c6_counterexample :
    invokeOk "rank_simulate" = false ∧ invokeOk "rank" = true ∧
    buildCheck "e2lsh" 0 0 = some (LSHKind.e2lsh 0 0) :=
  ⟨by decide, by decide, by decide⟩

/-- C6 (amended): the only fail-fast configuration guard is the assertion on
the strategy name in `invoke` — the accepted names are exactly `opt`,
`uniform`, `weighted_uniform`, `approx_degree`, `rank`.  `build` performs no
validation: `k ≤ 0` and `L ≤ 0` are accepted silently, an unknown
hash-family type yields no object (`None`) rather than an error, and an
empty dataset builds empty tables without error. -/
theorem c6_config_guards :
    (∀ m, invokeOk m = true ↔
      (m = "opt" ∨ m = "uniform" ∨ m = "weighted_uniform" ∨
       m = "approx_degree" ∨ m = "rank")) ∧
    buildCheck "e2lsh" 0 0 = some (LSHKind.e2lsh 0 0) ∧
    buildCheck "onebitminhash" 0 0 = some (LSHKind.onebitminhash 0 0) ∧
    buildCheck "bogus" 1 1 = none ∧
    (∀ (key : Nat → Nat → Nat) (t h : Nat), buildTables 0 5 key t h = ∅) := by
  refine ⟨?_, by decide, by decide, by decide, fun key t h => rfl⟩
  intro m
  unfold invokeOk methods
  rw [decide_eq_true_eq]
  simp [List.mem_cons]

/-! ## Seed determinism of the hash families -/

/-- `E2LSH.__init__` discards the incoming generator states (it reseeds both
`np.random` and `random` from `seed`), so two constructions with the same
seed agree exactly, whatever the prior global generator states were. -/
theorem e2lshInit_deterministic (npS pyS : Nat → Nat → Nat) (k L d seed : Nat)
    (g1 g2 : Rng) :
    e2lshInit npS pyS k L d seed g1 = e2lshInit npS pyS k L d seed g2 := rfl

/-- C9 fails for `OneBitMinHash`: its `seed` parameter is never used, so two
constructions with the same seed but different prior global generator states
produce different hash tables, and identical sampling calls are then not
reproducible.  This evaluates the model at the failing input (seed `3`, one
generator stream all zeros, the other all ones). -/
theorem c9_onebitminhash_seed_unused :
    (oneBitMinHashInit 1 1 3 ⟨fun _ => 0, 0⟩).1 ≠
    (oneBitMinHashInit 1 1 3 ⟨fun _ => 1, 0⟩).1 := by
  decide
